import Mathlib

/-!
# crypto/internal/crypto/hash/hash.go

A shallow embedding of the hash abstraction layer: the algorithm identifier,
the `Hash` value type with `Equal`, `Hex` and `String`, and the conversion
helpers `BytesToHash` and `HashesToBytes`.

Go byte slices are slice headers over a flat byte memory, so that copying and
aliasing can be told apart. The standard-library routines the source calls
(`bytes.Equal`, `make`, `copy`, `fmt.Sprintf` with the format `%#x`) are
modelled after their documented behaviour.
-/

set_option autoImplicit false

/-! ## Memory and slices -/

/-- One byte. -/
abbrev Byte := Fin 256

/-- Go strings, under a name that stays usable next to the `String` methods. -/
abbrev GoString := String

/-- Flat byte memory: the cell at address `a` is the `a`-th entry. -/
abbrev Heap := List Byte

/-- A slice header of type `[]byte`: either the nil slice, or a pointer into
memory with a length and a capacity. -/
inductive Slice where
  | nil : Slice
  | mk (ptr len cap : Nat) : Slice
deriving DecidableEq, Repr

/-- Go `len(s)`. -/
def Slice.len : Slice → Nat
  | Slice.nil => 0
  | Slice.mk _ l _ => l

/-- Go `cap(s)`. -/
def Slice.cap : Slice → Nat
  | Slice.nil => 0
  | Slice.mk _ _ c => c

/-- Address of the first element (0 for the nil slice). -/
def Slice.ptr : Slice → Nat
  | Slice.nil => 0
  | Slice.mk p _ _ => p

/-- A slice header is valid in a memory when its length is within its capacity
and its whole capacity lies in allocated memory. -/
def Slice.valid (m : Heap) : Slice → Prop
  | Slice.nil => True
  | Slice.mk p l c => l ≤ c ∧ p + c ≤ m.length

instance (m : Heap) (s : Slice) : Decidable (s.valid m) := by
  cases s <;> unfold Slice.valid <;> infer_instance

/-- Go `s[i]`: the byte at index `i`, or `none` for the index-out-of-range
panic. -/
def Slice.load (m : Heap) (s : Slice) (i : Nat) : Option Byte :=
  if i < s.len then some (m.getD (s.ptr + i) 0) else none

/-- The contents of a slice: its `len` bytes in index order. -/
def Slice.bytes (m : Heap) (s : Slice) : List Byte :=
  (List.range s.len).map fun i => m.getD (s.ptr + i) 0

/-- Go `s[i] = v`: the memory after the store, or `none` for the
index-out-of-range panic. -/
def Slice.store (m : Heap) (s : Slice) (i : Nat) (v : Byte) : Option Heap :=
  if i < s.len then some (m.set (s.ptr + i) v) else none

/-- A sequence of stores `s[i] = v` through the same slice, in order. -/
def Slice.storeMany (m : Heap) (s : Slice) : List (Nat × Byte) → Option Heap
  | [] => some m
  | (i, v) :: ws =>
    match s.store m i v with
    | none => none
    | some m1 => Slice.storeMany m1 s ws

/-- Go `make([]byte, n)`: a fresh zeroed block of `n` bytes at the end of
memory; the result is never the nil slice. -/
def makeBytes (m : Heap) (n : Nat) : Heap × Slice :=
  (m ++ List.replicate n 0, Slice.mk m.length n n)

/-- Writes the bytes `data` to consecutive addresses from `p`. -/
def writeAt : Heap → Nat → List Byte → Heap
  | m, _, [] => m
  | m, p, v :: vs => writeAt (m.set p v) (p + 1) vs

/-- Go `copy(dst, src)`: copies `min(len(dst), len(src))` bytes (the source
bytes are read before anything is written, as memmove does) and returns that
count. -/
def copyBytes (m : Heap) (dst src : Slice) : Heap × Nat :=
  let n := min dst.len src.len
  (writeAt m dst.ptr ((src.bytes m).take n), n)

/-! ## bytes.Equal -/

/-- Go `bytes.Equal(a, b)`, which is `string(a) == string(b)`: the two
contents are compared as byte strings, a nil slice counting as empty. -/
def bytesEqual (m : Heap) (a b : Slice) : Bool :=
  a.bytes m == b.bytes m

/-! ## HashingAlgorithm -/

/-- Go `type HashingAlgorithm int`. -/
abbrev HashingAlgorithm := Int

/-- The value of `iota` in the `i`-th line of the constant block. -/
def HashingAlgorithm.iota (i : Nat) : HashingAlgorithm := Int.ofNat i

/-- The zero value of a type whose underlying type is `int`. -/
def HashingAlgorithm.zeroValue : HashingAlgorithm := 0

def UnknownHashingAlgorithm : HashingAlgorithm := HashingAlgorithm.iota 0
def SHA2_256 : HashingAlgorithm := HashingAlgorithm.iota 1
def SHA2_384 : HashingAlgorithm := HashingAlgorithm.iota 2
def SHA3_256 : HashingAlgorithm := HashingAlgorithm.iota 3
def SHA3_384 : HashingAlgorithm := HashingAlgorithm.iota 4

/-- The array literal indexed by `HashingAlgorithm.String`. -/
def HashingAlgorithm.names : List GoString :=
  ["UNKNOWN", "SHA2_256", "SHA2_384", "SHA3_256", "SHA3_384"]

/-- Go `func (f HashingAlgorithm) String() string`: indexes the name array
with `f`; `none` is the index-out-of-range panic. -/
def HashingAlgorithm.String (f : HashingAlgorithm) : Option GoString :=
  if f < 0 then none else HashingAlgorithm.names[f.toNat]?

/-! ## Hash -/

/-- Go `type Hash []byte`. -/
abbrev Hash := Slice

/-- Go `func (h Hash) Equal(input Hash) bool`. -/
def Hash.Equal (m : Heap) (h input : Hash) : Bool :=
  bytesEqual m h input

/-! ### Package fmt, for the format `%#x` -/

/-- An operand handed to `fmt` as an interface value: the bytes together with
the dynamic type, which is what decides the methods `fmt` finds on it. -/
inductive Value where
  | bytes (b : Slice) : Value
  | hash (h : Hash) : Value
deriving DecidableEq, Repr

/-- The digit table `ldigits` of package fmt. -/
def fmt.ldigits : List Char := "0123456789abcdefx".toList

/-- The bytes of a string (its UTF-8 encoding). -/
def fmt.stringBytes (s : GoString) : List Byte :=
  s.toUTF8.toList.map fun u => (⟨u.toNat % 256, Nat.mod_lt _ (by decide)⟩ : Byte)

/-- Hex encoding with the `#` flag and no space flag, width or precision
(`fmtSbx` of package fmt): nothing at all for an empty input, otherwise one
leading `0x` and then two digits per byte. -/
def fmt.fmtSbx (b : List Byte) (digits : List Char) : GoString :=
  if b.length = 0 then ""
  else
    String.mk (['0', digits.getD 16 'x'] ++
      b.flatMap fun c => [digits.getD (c.val >>> 4) '0', digits.getD (c.val &&& 0xF) '0'])

/-- Formatting of a `[]byte` operand under `%#x` (`fmtBytes` of package fmt). -/
def fmt.fmtBytes (b : List Byte) : GoString :=
  fmt.fmtSbx b fmt.ldigits

/-- Formatting of a string under `%#x` (`fmtString` of package fmt): the hex
encoding of the bytes of the string. -/
def fmt.fmtString (s : GoString) : GoString :=
  fmt.fmtSbx (fmt.stringBytes s) fmt.ldigits

/-
`Hex` passes the receiver itself to `fmt.Sprintf`, so the operand has dynamic
type `Hash`. For the verbs that are valid for strings (`%s %q %v %x %X`) fmt
first looks for an `Error` or `String` method on the operand and, finding one,
calls it and formats the returned string; only an operand of exactly type
`[]byte` is taken by the type switch of `printArg` before that.

Every call occupies a stack frame; the first argument bounds the depth of the
call stack, and `none` is the stack running out.
-/
mutual
/-- Go `func (h Hash) Hex() string { return fmt.Sprintf("%#x", h) }`. -/
def Hash.Hex (m : Heap) : Nat → Hash → Option GoString
  | 0, _ => none
  | fuel + 1, h => fmt.Sprintf m fuel (Value.hash h)
/-- Go `func (h Hash) String() string { return h.Hex() }`. -/
def Hash.String (m : Heap) : Nat → Hash → Option GoString
  | 0, _ => none
  | fuel + 1, h => Hash.Hex m fuel h
/-- Go `fmt.Sprintf("%#x", arg)`: one verb, one operand. -/
def fmt.Sprintf (m : Heap) : Nat → Value → Option GoString
  | 0, _ => none
  | fuel + 1, arg => fmt.printArg m fuel arg
/-- The type switch of `printArg`: `[]byte` is formatted directly; any other
type is offered to `handleMethods` and, if not handled there, printed through
reflection, which renders a slice of bytes like `[]byte`. -/
def fmt.printArg (m : Heap) : Nat → Value → Option GoString
  | 0, _ => none
  | _ + 1, Value.bytes b => some (fmt.fmtBytes (b.bytes m))
  | fuel + 1, Value.hash h =>
    match fmt.handleMethods m fuel (Value.hash h) with
    | none => none
    | some (some out) => some out
    | some none => some (fmt.fmtBytes (h.bytes m))
/-- The method dispatch of `handleMethods` for the verb `x` without `#v`:
an operand with a `String` method is a Stringer, its method is called and the
result formatted as a string. The inner `none` means "not handled". -/
def fmt.handleMethods (m : Heap) : Nat → Value → Option (Option GoString)
  | 0, _ => none
  | _ + 1, Value.bytes _ => some none
  | fuel + 1, Value.hash h =>
    match Hash.String m fuel h with
    | none => none
    | some s => some (some (fmt.fmtString s))
end

/-! ## Conversions -/

/-- Go `func BytesToHash(b []byte) Hash`: `make`, then `copy`, then return the
new slice. -/
def BytesToHash (m : Heap) (b : Slice) : Heap × Hash :=
  let mh := makeBytes m b.len
  let mc := copyBytes mh.1 mh.2 b
  (mc.1, mh.2)

/-- Go `b[i] = h` on a slice of slice headers; `none` is the
index-out-of-range panic. -/
def storeHeader (b : List Slice) (i : Nat) (h : Slice) : Option (List Slice) :=
  if i < b.length then some (b.set i h) else none

/-- The loop `for i, h := range hashes { b[i] = h }`, from index `i` on. -/
def HashesToBytes.loop : Nat → List Hash → List Slice → Option (List Slice)
  | _, [], b => some b
  | i, h :: rest, b =>
    match storeHeader b i h with
    | none => none
    | some b1 => HashesToBytes.loop (i + 1) rest b1

/-- Go `func HashesToBytes(hashes []Hash) [][]byte`: a new slice of
`len(hashes)` headers (each the zero value, nil), filled by the loop. -/
def HashesToBytes (hashes : List Hash) : Option (List Slice) :=
  HashesToBytes.loop 0 hashes (List.replicate hashes.length Slice.nil)

/-- The loop `for i, b := range bs { out[i] = BytesToHash(b) }`: one call of
`BytesToHash` per element, in order, each on the memory the previous one
left. -/
def mapBytesToHash : Heap → List Slice → Heap × List Hash
  | m, [] => (m, [])
  | m, b :: bs =>
    let r := BytesToHash m b
    let rs := mapBytesToHash r.1 bs
    (rs.1, r.2 :: rs.2)

/-! ## Output lengths -/

def HashLenSha2_256 : Int := 32
def HashLenSha2_384 : Int := 48
def HashLenSha3_256 : Int := 32
def HashLenSha3_384 : Int := 48

/-! ## commonHasher -/

/-- Go `type commonHasher struct { algo HashingAlgorithm; outputSize int }`. -/
structure commonHasher where
  algo : HashingAlgorithm
  outputSize : Int
deriving DecidableEq, Repr

/-- Go `func (a *commonHasher) Algorithm() HashingAlgorithm { return a.algo }`.
The receiver is a pointer: `none` as argument is the nil pointer and `none` as
result the nil-dereference panic. The result pairs the returned identifier
with the object as the call leaves it. -/
def commonHasher.Algorithm (a : Option commonHasher) :
    Option (HashingAlgorithm × commonHasher) :=
  match a with
  | none => none
  | some c => some (c.algo, c)

/-! ## Hasher -/

/-- Modelled from the spec: the implementations of the `Hasher` interface are
not among the sources, only the interface is. A hasher instance is in one of
the two states `Empty` and `Accumulating`; the latter holds the bytes written
since the instance was last empty. -/
inductive HasherState where
  | Empty : HasherState
  | Accumulating (written : List Byte) : HasherState
deriving DecidableEq, Repr

/-- Modelled from the spec: the accumulated input of a hasher state (the
implementations of `Hasher` are not among the sources). -/
def HasherState.input : HasherState → List Byte
  | HasherState.Empty => []
  | HasherState.Accumulating w => w

/-- Modelled from the spec: a concrete hasher, whose implementations are not
among the sources. It is bound to one algorithm and one output size (the
`commonHasher` data), computes digests with a transform `digest` that lies
outside this layer and always yields `outputSize` bytes, and carries the
mutable accumulated input state. -/
structure Hasher where
  common : commonHasher
  digest : List Byte → List Byte
  size_ok : ∀ x, Int.ofNat (digest x).length = common.outputSize
  state : HasherState

/-- A new hash value holding the bytes `d`, in freshly allocated memory. -/
def allocHash (m : Heap) (d : List Byte) : Heap × Hash :=
  (m ++ d, Slice.mk m.length d.length d.length)

/-- Modelled from the spec: `size()`, the fixed number of bytes of a completed
digest (the implementations of `Hasher` are not among the sources). -/
def Hasher.Size (h : Hasher) : Int :=
  h.common.outputSize

/-- Modelled from the spec: `write(bytes)` appends the bytes to the accumulated
input, moving `Empty` to `Accumulating` or staying in `Accumulating`, and
returns the number of bytes accepted, which is all of them (the
implementations of `Hasher` are not among the sources). -/
def Hasher.Write (m : Heap) (h : Hasher) (p : Slice) : Hasher × Nat :=
  ({ h with state := HasherState.Accumulating (h.state.input ++ p.bytes m) }, p.len)

/-- Modelled from the spec: `computeHash(bytes)` returns the digest of exactly
the given bytes and does not touch the accumulated state (the implementations
of `Hasher` are not among the sources). -/
def Hasher.ComputeHash (m : Heap) (h : Hasher) (x : Slice) : Heap × Hasher × Hash :=
  let r := allocHash m (h.digest (x.bytes m))
  (r.1, h, r.2)

/-- Modelled from the spec: `sumHash()` returns the digest of everything
written so far and leaves the instance in the `Empty` state (the
implementations of `Hasher` are not among the sources). -/
def Hasher.SumHash (m : Heap) (h : Hasher) : Heap × Hasher × Hash :=
  let r := allocHash m (h.digest h.state.input)
  (r.1, { h with state := HasherState.Empty }, r.2)

/-- Modelled from the spec: `reset()` discards the accumulated input and
changes neither `algorithm()` nor `size()` (the implementations of `Hasher`
are not among the sources). -/
def Hasher.Reset (h : Hasher) : Hasher :=
  { h with state := HasherState.Empty }

/-! ## Sample inputs -/

/-- A memory holding the bytes `ab cd ab 00`. -/
def sampleHeap : Heap := [0xab, 0xcd, 0xab, 0x00]

/-- The two-byte slice `ab cd` at address 0 of `sampleHeap`. -/
def sampleHash : Hash := Slice.mk 0 2 2

/-- A hasher for the sample memory: SHA2_256 as identifier and 32 as output
size, with a stand-in transform (32 copies of the byte sum of the input) in
place of the real one. -/
def sampleHasher : Hasher where
  common := { algo := SHA2_256, outputSize := HashLenSha2_256 }
  digest := fun x => List.replicate 32 (x.foldl (fun a b => a + b) 0)
  size_ok := by
    intro x
    simp [HashLenSha2_256]
  state := HasherState.Empty

/-! ## Slices and memory: basic facts -/

theorem Slice.bytes_length (m : Heap) (s : Slice) : (s.bytes m).length = s.len := by
  simp [Slice.bytes]

theorem Slice.bytes_getElem? (m : Heap) (s : Slice) (i : Nat) :
    (s.bytes m)[i]? = s.load m i := by
  unfold Slice.bytes Slice.load
  by_cases h : i < s.len
  · simp [h, List.getElem?_map, List.getElem?_range]
  · simp [h]
    omega

theorem Slice.bytes_eq_iff (m1 m2 : Heap) (a b : Slice) :
    a.bytes m1 = b.bytes m2 ↔
      (a.len = b.len ∧ ∀ i, i < a.len → a.load m1 i = b.load m2 i) := by
  constructor
  · intro h
    refine ⟨?_, fun i _ => ?_⟩
    · rw [← Slice.bytes_length m1 a, ← Slice.bytes_length m2 b, h]
    · rw [← Slice.bytes_getElem?, ← Slice.bytes_getElem?, h]
  · rintro ⟨hl, hi⟩
    apply List.ext_getElem?
    intro i
    by_cases h : i < a.len
    · rw [Slice.bytes_getElem?, Slice.bytes_getElem?, hi i h]
    · have h2 : ¬ i < b.len := hl ▸ h
      rw [Slice.bytes_getElem?, Slice.bytes_getElem?]
      simp [Slice.load, h, h2]

theorem Hash.Equal_eq_true_iff (m : Heap) (h1 h2 : Hash) :
    Hash.Equal m h1 h2 = true ↔ h1.bytes m = h2.bytes m := by
  simp [Hash.Equal, bytesEqual]

/-! ## Hash.Equal -/

/-- C1: `Equal` is true exactly when the two hashes have the same length and
the same byte at every index; a nil hash and an empty hash are equal (either
way round); and a hash is never equal to a proper initial segment of itself,
wherever that segment is stored. -/
theorem Hash_Equal_iff_same_length_same_bytes :
    (∀ (m : Heap) (h1 h2 : Hash),
        Hash.Equal m h1 h2 = true ↔
          (h1.len = h2.len ∧ ∀ i, i < h1.len → h1.load m i = h2.load m i)) ∧
    (∀ (m : Heap) (p c : Nat),
        Hash.Equal m Slice.nil (Slice.mk p 0 c) = true ∧
        Hash.Equal m (Slice.mk p 0 c) Slice.nil = true) ∧
    (∀ (m : Heap) (h pre : Hash) (k : Nat),
        k < h.len → pre.bytes m = (h.bytes m).take k →
          Hash.Equal m h pre = false ∧ Hash.Equal m pre h = false) := by
  refine ⟨fun m h1 h2 => ?_, fun m p c => ?_, fun m h pre k hk hpre => ?_⟩
  · rw [Hash.Equal_eq_true_iff, Slice.bytes_eq_iff]
  · simp [Hash.Equal, bytesEqual, Slice.bytes, Slice.len]
  · have hlen : (pre.bytes m).length = k := by
      rw [hpre, List.length_take, Slice.bytes_length]
      omega
    have hne : h.bytes m ≠ pre.bytes m := by
      intro e
      have := congrArg List.length e
      rw [hlen, Slice.bytes_length] at this
      omega
    constructor
    · cases hb : Hash.Equal m h pre
      · rfl
      · exact absurd ((Hash.Equal_eq_true_iff m h pre).1 hb) hne
    · cases hb : Hash.Equal m pre h
      · rfl
      · exact absurd ((Hash.Equal_eq_true_iff m pre h).1 hb).symm hne

/-- C1 at a concrete input: in `sampleHeap` the two-byte hash `ab cd` differs
from its one-byte initial segment `ab`. -/
theorem Hash_Equal_iff_same_length_same_bytes_witness :
    Hash.Equal sampleHeap sampleHash (Slice.mk 0 1 2) = false ∧
    Hash.Equal sampleHeap (Slice.mk 0 1 2) sampleHash = false :=
  Hash_Equal_iff_same_length_same_bytes.2.2 sampleHeap sampleHash (Slice.mk 0 1 2) 1
    (by decide) (by decide)

/-! ## Hash.Hex and Hash.String -/

/-- Whatever the stack depth allowed, none of the calls in the cycle
`Hex → Sprintf → printArg → handleMethods → String → Hex` returns. -/
theorem Hash.Hex_cycle_none (m : Heap) (fuel : Nat) :
    (∀ h, Hash.Hex m fuel h = none) ∧ (∀ h, Hash.String m fuel h = none) ∧
    (∀ h, fmt.Sprintf m fuel (Value.hash h) = none) ∧
    (∀ h, fmt.printArg m fuel (Value.hash h) = none) ∧
    (∀ h, fmt.handleMethods m fuel (Value.hash h) = none) := by
  induction fuel with
  | zero =>
    refine ⟨?_, ?_, ?_, ?_, ?_⟩ <;> intro h <;> simp [Hash.Hex, Hash.String, fmt.Sprintf, fmt.printArg, fmt.handleMethods]
  | succ n ih =>
    obtain ⟨h1, h2, h3, h4, h5⟩ := ih
    refine ⟨?_, ?_, ?_, ?_, ?_⟩ <;> intro h
    · simp [Hash.Hex, h3]
    · simp [Hash.String, h1]
    · simp [fmt.Sprintf, h4]
    · simp [fmt.printArg, h5]
    · simp [fmt.handleMethods, h2]

/-- With the operand converted to `[]byte` the same formatting does return:
`0x` and two lowercase digits per byte for a non-empty slice. -/
theorem fmt.Sprintf_bytes (m : Heap) (fuel : Nat) (b : Slice) :
    fmt.Sprintf m (fuel + 2) (Value.bytes b) = some (fmt.fmtBytes (b.bytes m)) := by
  simp [fmt.Sprintf, fmt.printArg]

/-- An empty `[]byte` operand formats to the empty string under `%#x`: the
leading `0x` is only written when there is at least one byte. -/
theorem fmt.Sprintf_bytes_empty (m : Heap) (fuel p c : Nat) :
    fmt.Sprintf m (fuel + 2) (Value.bytes Slice.nil) = some "" ∧
    fmt.Sprintf m (fuel + 2) (Value.bytes (Slice.mk p 0 c)) = some "" := by
  constructor <;> rfl

/-- C2: on the two-byte hash `ab cd` the claim expects `Hex` to return
`"0xabcd"` (which is what formatting the same bytes as `[]byte` gives), but
`Hex` returns nothing at any stack depth. -/
theorem Hash_Hex_sample_returns_nothing :
    (∀ fuel, Hash.Hex sampleHeap fuel sampleHash = none) ∧
    (∀ fuel, Hash.Hex sampleHeap fuel sampleHash ≠ some "0xabcd") ∧
    fmt.Sprintf sampleHeap 2 (Value.bytes sampleHash) = some "0xabcd" := by
  refine ⟨fun fuel => (Hash.Hex_cycle_none sampleHeap fuel).1 sampleHash, fun fuel => ?_, by decide⟩
  rw [(Hash.Hex_cycle_none sampleHeap fuel).1 sampleHash]
  simp

/-- C3: `sampleHash` is `Equal` to itself and the one-byte hashes `ab` and
`cd` are not `Equal`, but in neither case is there a pair of `Hex` strings to
compare: no `Hex` call returns at any stack depth. -/
theorem Hash_Equal_Hex_sample_no_strings :
    Hash.Equal sampleHeap sampleHash sampleHash = true ∧
    Hash.Equal sampleHeap (Slice.mk 0 1 2) (Slice.mk 1 1 1) = false ∧
    (∀ fuel, Hash.Hex sampleHeap fuel sampleHash = none ∧
      Hash.Hex sampleHeap fuel (Slice.mk 0 1 2) = none ∧
      Hash.Hex sampleHeap fuel (Slice.mk 1 1 1) = none) := by
  refine ⟨by decide, by decide, fun fuel => ⟨?_, ?_, ?_⟩⟩ <;>
    exact (Hash.Hex_cycle_none sampleHeap fuel).1 _

/-- C4: for every memory, every hash (the nil hash included) and every stack
depth, neither `Hex` nor `String` returns a string. -/
theorem Hash_Hex_String_never_return (m : Heap) (h : Hash) (fuel : Nat) :
    Hash.Hex m fuel h = none ∧ Hash.String m fuel h = none :=
  ⟨(Hash.Hex_cycle_none m fuel).1 h, (Hash.Hex_cycle_none m fuel).2.1 h⟩

/-! ## make and copy -/

theorem writeAt_append (d : List Byte) :
    ∀ (m z : Heap), z.length = d.length → writeAt (m ++ z) m.length d = m ++ d := by
  induction d with
  | nil =>
    intro m z hz
    have : z = [] := List.length_eq_zero.1 hz
    simp [writeAt, this]
  | cons v vs ih =>
    intro m z hz
    cases z with
    | nil => simp at hz
    | cons z0 zs =>
      have hzs : zs.length = vs.length := by simpa using hz
      have hset : (m ++ z0 :: zs).set m.length v = (m ++ [v]) ++ zs := by
        simp [List.set_append]
      have hlen : m.length + 1 = (m ++ [v]).length := by simp
      rw [writeAt, hset, hlen, ih (m ++ [v]) zs hzs]
      simp

theorem getD_append_zeros (m : Heap) (n a : Nat) :
    (m ++ List.replicate n (0 : Byte)).getD a 0 = m.getD a 0 := by
  by_cases h : a < m.length
  · simp [List.getD_eq_getElem?_getD, List.getElem?_append_left h]
  · have h1 : m.length ≤ a := Nat.le_of_not_lt h
    rw [List.getD_eq_getElem?_getD, List.getD_eq_getElem?_getD,
      List.getElem?_append_right h1, List.getElem?_eq_none h1]
    by_cases h2 : a - m.length < n
    · simp [List.getElem?_replicate, h2]
    · simp [List.getElem?_replicate, h2]

theorem Slice.bytes_append_zeros (m : Heap) (n : Nat) (s : Slice) :
    s.bytes (m ++ List.replicate n (0 : Byte)) = s.bytes m := by
  unfold Slice.bytes
  apply List.map_congr_left
  intro i _
  exact getD_append_zeros m n (s.ptr + i)

/-- Memory that is only extended at the end keeps the contents of every slice
that was valid before. -/
theorem Slice.bytes_append (m e : Heap) (s : Slice) (hv : s.valid m) :
    s.bytes (m ++ e) = s.bytes m := by
  cases s with
  | nil => simp [Slice.bytes, Slice.len]
  | mk p l c =>
    obtain ⟨hlc, hpc⟩ := hv
    simp only [Slice.bytes, Slice.len, Slice.ptr]
    apply List.map_congr_left
    intro i hi
    have hi2 : i < l := List.mem_range.1 hi
    have : p + i < m.length := by omega
    simp [List.getD_eq_getElem?_getD, List.getElem?_append_left this]

theorem Slice.valid_append (m e : Heap) (s : Slice) (hv : s.valid m) :
    s.valid (m ++ e) := by
  cases s with
  | nil => trivial
  | mk p l c =>
    obtain ⟨hlc, hpc⟩ := hv
    exact ⟨hlc, by simp; omega⟩

/-- The slice made of a block appended at the end of memory holds exactly that
block. -/
theorem Slice.bytes_fresh (m d : Heap) (c : Nat) :
    (Slice.mk m.length d.length c).bytes (m ++ d) = d := by
  apply List.ext_getElem?
  intro i
  rw [Slice.bytes_getElem?]
  by_cases h : i < d.length
  · have h1 : m.length ≤ m.length + i := Nat.le_add_right _ _
    simp [Slice.load, Slice.len, Slice.ptr, h, List.getD_eq_getElem?_getD,
      List.getElem?_append_right h1, List.getElem?_eq_getElem h]
  · simp [Slice.load, Slice.len, h, List.getElem?_eq_none (Nat.le_of_not_lt h)]

/-- What `BytesToHash` does to memory: it appends the bytes of `b` and returns
the slice of that new block. -/
theorem BytesToHash_eq (m : Heap) (b : Slice) :
    BytesToHash m b = (m ++ b.bytes m, Slice.mk m.length b.len b.len) := by
  have hz : (List.replicate b.len (0 : Byte)).length = (b.bytes m).length := by
    simp [Slice.bytes_length]
  have hlen : (Slice.mk m.length b.len b.len).len = b.len := rfl
  have hptr : (Slice.mk m.length b.len b.len).ptr = m.length := rfl
  simp only [BytesToHash, makeBytes, copyBytes, hlen, hptr, Nat.min_self,
    Slice.bytes_append_zeros]
  rw [List.take_of_length_le (by rw [Slice.bytes_length]), writeAt_append _ _ _ hz]

theorem BytesToHash_bytes (m : Heap) (b : Slice) :
    (BytesToHash m b).2.bytes (BytesToHash m b).1 = b.bytes m := by
  rw [BytesToHash_eq]
  have := Slice.bytes_fresh m (b.bytes m) b.len
  rw [Slice.bytes_length] at this
  exact this

theorem BytesToHash_valid (m : Heap) (b : Slice) :
    (BytesToHash m b).2.valid (BytesToHash m b).1 := by
  rw [BytesToHash_eq]
  exact ⟨Nat.le_refl _, by simp [Slice.bytes_length]⟩

theorem BytesToHash_heap (m : Heap) (b : Slice) :
    (BytesToHash m b).1 = m ++ b.bytes m := by
  rw [BytesToHash_eq]

theorem BytesToHash_len (m : Heap) (b : Slice) : (BytesToHash m b).2.len = b.len := by
  rw [BytesToHash_eq]
  rfl

/-- The source buffer reads the same after `BytesToHash` as before it. -/
theorem BytesToHash_source (m : Heap) (b : Slice) (hv : b.valid m) :
    b.bytes (BytesToHash m b).1 = b.bytes m := by
  rw [BytesToHash_heap, Slice.bytes_append m _ b hv]

/-! ## BytesToHash -/

/-- C5: for a buffer `b` valid in memory, `BytesToHash(b)` has the length of
`b` and at every index the byte `b` has (before the call and after it); the
result is `Equal` to itself, to `b`, and to the result of a second call
`BytesToHash(b)`. -/
theorem BytesToHash_same_length_same_bytes (m : Heap) (b : Slice) (hv : b.valid m) :
    (BytesToHash m b).2.len = b.len ∧
    (∀ i, i < b.len →
      (BytesToHash m b).2.load (BytesToHash m b).1 i = b.load m i ∧
      (BytesToHash m b).2.load (BytesToHash m b).1 i = b.load (BytesToHash m b).1 i) ∧
    Hash.Equal (BytesToHash m b).1 (BytesToHash m b).2 (BytesToHash m b).2 = true ∧
    Hash.Equal (BytesToHash m b).1 (BytesToHash m b).2 b = true ∧
    Hash.Equal (BytesToHash (BytesToHash m b).1 b).1 (BytesToHash m b).2
      (BytesToHash (BytesToHash m b).1 b).2 = true := by
  have hb := BytesToHash_bytes m b
  have hs := BytesToHash_source m b hv
  refine ⟨BytesToHash_len m b, fun i hi => ⟨?_, ?_⟩, ?_, ?_, ?_⟩
  · exact ((Slice.bytes_eq_iff _ _ _ _).1 hb).2 i (by rw [BytesToHash_len]; exact hi)
  · exact ((Slice.bytes_eq_iff _ _ _ _).1 (hb.trans hs.symm)).2 i
      (by rw [BytesToHash_len]; exact hi)
  · rw [Hash.Equal_eq_true_iff]
  · rw [Hash.Equal_eq_true_iff, hb, hs]
  · rw [Hash.Equal_eq_true_iff, BytesToHash_bytes, hs]
    rw [BytesToHash_heap (BytesToHash m b).1 b,
      Slice.bytes_append _ _ _ (BytesToHash_valid m b), hb]

/-- C5 at a concrete input: the two-byte buffer `ab cd` of `sampleHeap`. -/
theorem BytesToHash_same_length_same_bytes_witness :
    sampleHash.valid sampleHeap ∧
    (BytesToHash sampleHeap sampleHash).2.len = 2 ∧
    Hash.Equal (BytesToHash sampleHeap sampleHash).1
      (BytesToHash sampleHeap sampleHash).2 sampleHash = true :=
  have h := BytesToHash_same_length_same_bytes sampleHeap sampleHash (by decide)
  ⟨by decide, h.1, h.2.2.2.1⟩

/-! ## Stores and aliasing -/

theorem getD_set_ne (m : Heap) (a a2 : Nat) (v : Byte) (h : a ≠ a2) :
    (m.set a v).getD a2 0 = m.getD a2 0 := by
  simp [List.getD_eq_getElem?_getD, List.getElem?_set_ne h]

/-- Stores through a slice `s` leave the contents of any slice `t` whose
address range does not meet that of `s` as they were; in-bounds stores do not
panic. -/
theorem Slice.storeMany_frame (s t : Slice)
    (hd : s.ptr + s.len ≤ t.ptr ∨ t.ptr + t.len ≤ s.ptr) :
    ∀ (ws : List (Nat × Byte)) (m : Heap), (∀ w ∈ ws, w.1 < s.len) →
      ∃ m3, s.storeMany m ws = some m3 ∧ t.bytes m3 = t.bytes m := by
  intro ws
  induction ws with
  | nil => intro m _; exact ⟨m, rfl, rfl⟩
  | cons w ws ih =>
    intro m hws
    obtain ⟨i, v⟩ := w
    have hi : i < s.len := hws (i, v) (List.mem_cons_self _ _)
    obtain ⟨m3, h3, hb⟩ := ih (m.set (s.ptr + i) v)
      (fun w hw => hws w (List.mem_cons_of_mem _ hw))
    refine ⟨m3, ?_, ?_⟩
    · simp [Slice.storeMany, Slice.store, hi, h3]
    · rw [hb]
      unfold Slice.bytes
      apply List.map_congr_left
      intro j hj
      have hj2 : j < t.len := List.mem_range.1 hj
      exact getD_set_ne m _ _ v (by omega)

/-- C6: the hash made by `BytesToHash(b)` shares no memory with `b`: any
sequence of in-bounds stores through `b` after the call goes through and
leaves the bytes of the hash unchanged, and any sequence of in-bounds stores
through the hash leaves the bytes of `b` unchanged. -/
theorem BytesToHash_no_alias (m : Heap) (b : Slice) (hv : b.valid m)
    (ws : List (Nat × Byte)) (hws : ∀ w ∈ ws, w.1 < b.len) :
    (∃ m3, b.storeMany (BytesToHash m b).1 ws = some m3 ∧
      (BytesToHash m b).2.bytes m3 = (BytesToHash m b).2.bytes (BytesToHash m b).1) ∧
    (∃ m3, (BytesToHash m b).2.storeMany (BytesToHash m b).1 ws = some m3 ∧
      b.bytes m3 = b.bytes (BytesToHash m b).1) := by
  have hsep : b.ptr + b.len ≤ m.length := by
    cases b with
    | nil => simp [Slice.ptr, Slice.len]
    | mk p l c =>
      obtain ⟨hlc, hpc⟩ := hv
      simp only [Slice.ptr, Slice.len]
      omega
  have hh : (BytesToHash m b).2 = Slice.mk m.length b.len b.len := by rw [BytesToHash_eq]
  constructor
  · exact Slice.storeMany_frame b (BytesToHash m b).2
      (Or.inl (by rw [hh]; exact hsep)) ws _ hws
  · exact Slice.storeMany_frame (BytesToHash m b).2 b
      (Or.inr (by rw [hh]; exact hsep)) ws _ (by rw [hh]; exact hws)

/-- C6 at a concrete input: after `BytesToHash` of the buffer `ab cd`,
overwriting both bytes of the buffer leaves the hash reading `ab cd`. -/
theorem BytesToHash_no_alias_witness :
    sampleHash.valid sampleHeap ∧
    (∃ m3, sampleHash.storeMany (BytesToHash sampleHeap sampleHash).1
        [(0, 0x11), (1, 0x22)] = some m3 ∧
      (BytesToHash sampleHeap sampleHash).2.bytes m3 =
        (BytesToHash sampleHeap sampleHash).2.bytes (BytesToHash sampleHeap sampleHash).1) :=
  ⟨by decide,
    (BytesToHash_no_alias sampleHeap sampleHash (by decide) [(0, 0x11), (1, 0x22)]
      (by decide)).1⟩

/-! ## HashesToBytes -/

theorem take_set_same (l : List Slice) (i : Nat) (a : Slice) :
    (l.set i a).take i = l.take i := by
  apply List.ext_getElem?
  intro j
  rw [List.getElem?_take, List.getElem?_take]
  split
  · next hj => rw [List.getElem?_set_ne (by omega)]
  · rfl

/-- Loop invariant of `HashesToBytes`: entering the loop at index `i` with the
first `i` entries of `b` already equal to `done`, and `b` long enough for the
rest, the loop finishes without a panic and returns `done ++ rest`. -/
theorem HashesToBytes.loop_eq (rest : List Hash) :
    ∀ (i : Nat) (b done : List Slice), b.length = i + rest.length → done.length = i →
      b.take i = done → HashesToBytes.loop i rest b = some (done ++ rest) := by
  induction rest with
  | nil =>
    intro i b done hb _ ht
    have : b.take i = b := List.take_of_length_le (by simp at hb; omega)
    simp [HashesToBytes.loop, ← ht, this]
  | cons h rest ih =>
    intro i b done hb hd ht
    have hi : i < b.length := by simp at hb; omega
    have hstep := ih (i + 1) (b.set i h) (done ++ [h]) (by simp at hb ⊢; omega) (by simp [hd])
      (by rw [List.take_succ, take_set_same, List.getElem?_set_self hi, ht]; rfl)
    simp [HashesToBytes.loop, storeHeader, hi, hstep]

theorem HashesToBytes_eq (hs : List Hash) : HashesToBytes hs = some hs := by
  have := HashesToBytes.loop_eq hs 0 (List.replicate hs.length Slice.nil) [] (by simp) rfl rfl
  simpa [HashesToBytes] using this

/-- C7: `HashesToBytes` returns (without a panic) a sequence of as many byte
slices as there are hashes, whose `i`-th element is the slice header of the
`i`-th hash and so reads the same bytes in any memory: order and duplicates
are kept, nothing is dropped or added. -/
theorem HashesToBytes_same_length_same_elements (hs : List Hash) :
    ∃ bs, HashesToBytes hs = some bs ∧ bs.length = hs.length ∧
      (∀ i, i < hs.length → bs[i]? = hs[i]?) ∧
      (∀ (m : Heap) (i : Nat), i < hs.length →
        (bs[i]?).map (Slice.bytes m) = (hs[i]?).map (Slice.bytes m)) :=
  ⟨hs, HashesToBytes_eq hs, rfl, fun _ _ => rfl, fun _ _ _ => rfl⟩

/-! ## Batch round trip -/

/-- Converting a list of valid slices one by one only extends memory at the
end; every new hash is valid in the final memory and reads the bytes its
source had. -/
theorem mapBytesToHash_spec (bs : List Slice) :
    ∀ (m : Heap), (∀ b ∈ bs, b.valid m) →
      (∃ e, (mapBytesToHash m bs).1 = m ++ e) ∧
      (∀ o ∈ (mapBytesToHash m bs).2, o.valid (mapBytesToHash m bs).1) ∧
      (mapBytesToHash m bs).2.map (Slice.bytes (mapBytesToHash m bs).1) =
        bs.map (Slice.bytes m) := by
  induction bs with
  | nil => intro m _; exact ⟨⟨[], by simp [mapBytesToHash]⟩, by simp [mapBytesToHash], rfl⟩
  | cons b bs ih =>
    intro m hv
    have hb : b.valid m := hv b (List.mem_cons_self _ _)
    have hbs : ∀ x ∈ bs, x.valid (BytesToHash m b).1 := by
      intro x hx
      rw [BytesToHash_heap]
      exact Slice.valid_append _ _ _ (hv x (List.mem_cons_of_mem _ hx))
    obtain ⟨⟨e, he⟩, hval, hmap⟩ := ih (BytesToHash m b).1 hbs
    have hfin : (mapBytesToHash m (b :: bs)).1 = (mapBytesToHash (BytesToHash m b).1 bs).1 := rfl
    have hout : (mapBytesToHash m (b :: bs)).2 =
        (BytesToHash m b).2 :: (mapBytesToHash (BytesToHash m b).1 bs).2 := rfl
    refine ⟨⟨b.bytes m ++ e, ?_⟩, ?_, ?_⟩
    · rw [hfin, he, BytesToHash_heap, List.append_assoc]
    · intro o ho
      rw [hout] at ho
      rw [hfin]
      rcases List.mem_cons.1 ho with h1 | h1
      · rw [h1, he]
        exact Slice.valid_append _ _ _ (BytesToHash_valid m b)
      · exact hval o h1
    · rw [hout, hfin, List.map_cons, List.map_cons, hmap]
      congr 1
      · rw [he, Slice.bytes_append _ _ _ (BytesToHash_valid m b), BytesToHash_bytes]
      · apply List.map_congr_left
        intro x hx
        rw [BytesToHash_heap, Slice.bytes_append _ _ _ (hv x (List.mem_cons_of_mem _ hx))]

theorem mapBytesToHash_length (bs : List Slice) :
    ∀ (m : Heap), (mapBytesToHash m bs).2.length = bs.length := by
  induction bs with
  | nil => intro m; rfl
  | cons b bs ih =>
    intro m
    show ((BytesToHash m b).2 :: (mapBytesToHash (BytesToHash m b).1 bs).2).length = _
    simp [ih]

/-- C8: for hashes valid in memory, `HashesToBytes` returns a sequence `bs`,
and applying `BytesToHash` to each element of `bs` in turn gives a sequence of
the same length as `hs` whose `i`-th element is `Equal` to `hs[i]`, for every
index `i`. -/
theorem batch_round_trip (m : Heap) (hs : List Hash) (hv : ∀ h ∈ hs, h.valid m) :
    ∃ bs, HashesToBytes hs = some bs ∧
      (mapBytesToHash m bs).2.length = hs.length ∧
      ∀ i, i < hs.length →
        ∃ o h, (mapBytesToHash m bs).2[i]? = some o ∧ hs[i]? = some h ∧
          Hash.Equal (mapBytesToHash m bs).1 o h = true := by
  refine ⟨hs, HashesToBytes_eq hs, mapBytesToHash_length hs m, fun i hi => ?_⟩
  obtain ⟨⟨e, he⟩, _, hmap⟩ := mapBytesToHash_spec hs m hv
  have hi2 : i < (mapBytesToHash m hs).2.length := by rw [mapBytesToHash_length]; exact hi
  refine ⟨(mapBytesToHash m hs).2[i], hs[i], List.getElem?_eq_getElem hi2,
    List.getElem?_eq_getElem hi, ?_⟩
  rw [Hash.Equal_eq_true_iff]
  have h1 := congrArg (fun l => l[i]?) hmap
  simp only [List.getElem?_map, List.getElem?_eq_getElem hi2, List.getElem?_eq_getElem hi,
    Option.map_some', Option.some.injEq] at h1
  rw [h1, he, Slice.bytes_append _ _ _ (hv _ (List.getElem_mem hi))]

/-- C8 at a concrete input: three hashes of `sampleHeap`, one of them twice and
one nil. -/
theorem batch_round_trip_witness :
    (∀ h ∈ [sampleHash, Slice.nil, Slice.mk 2 2 2, sampleHash], h.valid sampleHeap) ∧
    ∃ bs, HashesToBytes [sampleHash, Slice.nil, Slice.mk 2 2 2, sampleHash] = some bs ∧
      (mapBytesToHash sampleHeap bs).2.length = 4 ∧
      ∀ i, i < 4 →
        ∃ o h, (mapBytesToHash sampleHeap bs).2[i]? = some o ∧
          [sampleHash, Slice.nil, Slice.mk 2 2 2, sampleHash][i]? = some h ∧
          Hash.Equal (mapBytesToHash sampleHeap bs).1 o h = true :=
  ⟨by decide,
    batch_round_trip sampleHeap [sampleHash, Slice.nil, Slice.mk 2 2 2, sampleHash] (by decide)⟩

/-! ## HashingAlgorithm -/

/-- C9: `String` returns `"UNKNOWN"`, `"SHA2_256"`, `"SHA2_384"`, `"SHA3_256"`
and `"SHA3_384"` for the five defined identifiers, and on those identifiers it
is injective. -/
theorem HashingAlgorithm_String_names :
    HashingAlgorithm.String UnknownHashingAlgorithm = some "UNKNOWN" ∧
    HashingAlgorithm.String SHA2_256 = some "SHA2_256" ∧
    HashingAlgorithm.String SHA2_384 = some "SHA2_384" ∧
    HashingAlgorithm.String SHA3_256 = some "SHA3_256" ∧
    HashingAlgorithm.String SHA3_384 = some "SHA3_384" ∧
    (HashingAlgorithm.names.Pairwise fun a b => a ≠ b) ∧
    (∀ a ∈ [UnknownHashingAlgorithm, SHA2_256, SHA2_384, SHA3_256, SHA3_384],
      ∀ b ∈ [UnknownHashingAlgorithm, SHA2_256, SHA2_384, SHA3_256, SHA3_384],
        HashingAlgorithm.String a = HashingAlgorithm.String b → a = b) := by
  refine ⟨by decide, by decide, by decide, by decide, by decide, by decide, ?_⟩
  decide

/-- C10: the sentinel is the zero value, the four named algorithms are 1, 2, 3
and 4, and the five values are pairwise distinct. -/
theorem HashingAlgorithm_values :
    UnknownHashingAlgorithm = HashingAlgorithm.zeroValue ∧
    UnknownHashingAlgorithm = 0 ∧ SHA2_256 = 1 ∧ SHA2_384 = 2 ∧ SHA3_256 = 3 ∧ SHA3_384 = 4 ∧
    ([UnknownHashingAlgorithm, SHA2_256, SHA2_384, SHA3_256, SHA3_384].Pairwise
      fun a b => a ≠ b) := by
  refine ⟨by decide, by decide, by decide, by decide, by decide, by decide, by decide⟩

/-! ## Hash.String against Hash.Hex -/

/-- C11: `String` hands its work to `Hex` (one stack frame deeper, same
outcome), but on the nil hash and on the two-byte hash `ab cd` alike there is
no string for the two to agree on: neither method returns at any stack
depth. -/
theorem Hash_String_Hex_sample_no_string :
    (∀ fuel, Hash.String sampleHeap (fuel + 1) sampleHash = Hash.Hex sampleHeap fuel sampleHash) ∧
    (∀ fuel, Hash.String sampleHeap fuel sampleHash = none ∧
      Hash.Hex sampleHeap fuel sampleHash = none) ∧
    (∀ fuel, Hash.String sampleHeap fuel Slice.nil = none ∧
      Hash.Hex sampleHeap fuel Slice.nil = none) := by
  refine ⟨fun fuel => ?_, fun fuel => ⟨?_, ?_⟩, fun fuel => ⟨?_, ?_⟩⟩
  · simp [Hash.String]
  · exact (Hash.Hex_cycle_none sampleHeap fuel).2.1 _
  · exact (Hash.Hex_cycle_none sampleHeap fuel).1 _
  · exact (Hash.Hex_cycle_none sampleHeap fuel).2.1 _
  · exact (Hash.Hex_cycle_none sampleHeap fuel).1 _

/-! ## Output lengths -/

/-- C12: the output-length constants are 32, 48, 32 and 48 bytes; the two
256-bit variants share one length and the two 384-bit variants another. -/
theorem HashLen_table :
    HashLenSha2_256 = 32 ∧ HashLenSha2_384 = 48 ∧ HashLenSha3_256 = 32 ∧
    HashLenSha3_384 = 48 ∧ HashLenSha2_256 = HashLenSha3_256 ∧
    HashLenSha2_384 = HashLenSha3_384 ∧ HashLenSha2_256 ≠ HashLenSha2_384 := by
  refine ⟨by decide, by decide, by decide, by decide, by decide, by decide, by decide⟩

/-! ## commonHasher.Algorithm -/

/-- C13: on every `commonHasher` the call `Algorithm` returns the `algo` field
and leaves the object, so both its fields, as it was; a second call returns
the same identifier. -/
theorem commonHasher_Algorithm_returns_algo (c : commonHasher) :
    ∃ r c1, commonHasher.Algorithm (some c) = some (r, c1) ∧ r = c.algo ∧
      c1.algo = c.algo ∧ c1.outputSize = c.outputSize ∧
      commonHasher.Algorithm (some c1) = some (r, c1) :=
  ⟨c.algo, c, rfl, rfl, rfl, rfl, rfl⟩

/-! ## HashingAlgorithm.String out of range -/

theorem HashingAlgorithm.String_eq_none_iff (f : Int) :
    HashingAlgorithm.String f = none ↔ (f < 0 ∨ 4 < f) := by
  have hlen : HashingAlgorithm.names.length = 5 := rfl
  unfold HashingAlgorithm.String
  by_cases h : f < 0
  · simp [h]
  · rw [if_neg h, List.getElem?_eq_none_iff, hlen]
    have := Int.toNat_of_nonneg (Int.not_lt.1 h)
    omega

theorem HashingAlgorithm.String_isSome_iff (f : Int) :
    (HashingAlgorithm.String f).isSome = true ↔ (0 ≤ f ∧ f ≤ 4) := by
  have key := HashingAlgorithm.String_eq_none_iff f
  cases hs : HashingAlgorithm.String f with
  | none =>
    have := key.1 hs
    simp only [Option.isSome_none, Bool.false_eq_true, false_iff]
    omega
  | some v =>
    have hn : ¬ (f < 0 ∨ 4 < f) := fun hc => by
      rw [key.2 hc] at hs
      exact Option.noConfusion hs
    simp only [Option.isSome_some, true_iff]
    omega

/-- C16: the lookup of `String` succeeds exactly for the values 0 to 4; for
every negative value and every value above 4 it is the index-out-of-range
panic. -/
theorem HashingAlgorithm_String_in_bounds_iff (f : HashingAlgorithm) :
    ((HashingAlgorithm.String f).isSome = true ↔ (0 ≤ f ∧ f ≤ 4)) ∧
    ((f < 0 ∨ 4 < f) ↔ HashingAlgorithm.String f = none) :=
  ⟨HashingAlgorithm.String_isSome_iff f, (HashingAlgorithm.String_eq_none_iff f).symm⟩

/-! ## Hash.Equal as an equivalence -/

/-- C17: `Equal` is reflexive, symmetric and transitive. -/
theorem Hash_Equal_equivalence (m : Heap) (a b c : Hash) :
    Hash.Equal m a a = true ∧
    Hash.Equal m a b = Hash.Equal m b a ∧
    (Hash.Equal m a b = true → Hash.Equal m b c = true → Hash.Equal m a c = true) := by
  refine ⟨?_, ?_, ?_⟩
  · rw [Hash.Equal_eq_true_iff]
  · rw [Bool.eq_iff_iff, Hash.Equal_eq_true_iff, Hash.Equal_eq_true_iff]
    exact eq_comm
  · intro h1 h2
    rw [Hash.Equal_eq_true_iff] at h1 h2 ⊢
    exact h1.trans h2

/-- C17 at a concrete input: in `sampleHeap` the one-byte hashes at addresses
0 and 2 both hold `ab`, as does the initial byte of `sampleHash`. -/
theorem Hash_Equal_equivalence_witness :
    Hash.Equal sampleHeap (Slice.mk 0 1 2) (Slice.mk 2 1 1) = true ∧
    Hash.Equal sampleHeap (Slice.mk 2 1 1) (Slice.mk 0 1 1) = true ∧
    Hash.Equal sampleHeap (Slice.mk 0 1 2) (Slice.mk 0 1 1) = true :=
  ⟨by decide, by decide,
    (Hash_Equal_equivalence sampleHeap (Slice.mk 0 1 2) (Slice.mk 2 1 1) (Slice.mk 0 1 1)).2.2
      (by decide) (by decide)⟩

/-! ## Reverse batch round trip -/

/-- C18: for raw byte slices valid in memory, applying `BytesToHash` to each
and then `HashesToBytes` to the result gives (without a panic) a sequence of
the same length whose `i`-th element reads the bytes of `bs[i]`, as they were
before the calls and as they are after; the empty sequence gives the empty
sequence. -/
theorem reverse_batch_round_trip (m : Heap) (bs : List Slice) (hv : ∀ b ∈ bs, b.valid m) :
    ∃ out, HashesToBytes (mapBytesToHash m bs).2 = some out ∧
      out.length = bs.length ∧
      (∀ i, i < bs.length →
        ∃ o b, out[i]? = some o ∧ bs[i]? = some b ∧
          o.bytes (mapBytesToHash m bs).1 = b.bytes m ∧
          o.bytes (mapBytesToHash m bs).1 = b.bytes (mapBytesToHash m bs).1) ∧
      (bs = [] → out = []) := by
  refine ⟨(mapBytesToHash m bs).2, HashesToBytes_eq _, mapBytesToHash_length bs m,
    fun i hi => ?_, fun he => by rw [he]; rfl⟩
  obtain ⟨⟨e, he⟩, _, hmap⟩ := mapBytesToHash_spec bs m hv
  have hi2 : i < (mapBytesToHash m bs).2.length := by rw [mapBytesToHash_length]; exact hi
  have h1 := congrArg (fun l => l[i]?) hmap
  simp only [List.getElem?_map, List.getElem?_eq_getElem hi2, List.getElem?_eq_getElem hi,
    Option.map_some', Option.some.injEq] at h1
  refine ⟨(mapBytesToHash m bs).2[i], bs[i], List.getElem?_eq_getElem hi2,
    List.getElem?_eq_getElem hi, h1, ?_⟩
  rw [h1, he, Slice.bytes_append _ _ _ (hv _ (List.getElem_mem hi))]

/-- C18 at a concrete input: three raw slices of `sampleHeap`, one of them nil. -/
theorem reverse_batch_round_trip_witness :
    (∀ b ∈ [sampleHash, Slice.nil, Slice.mk 2 2 2], b.valid sampleHeap) ∧
    ∃ out, HashesToBytes (mapBytesToHash sampleHeap [sampleHash, Slice.nil, Slice.mk 2 2 2]).2 =
        some out ∧ out.length = 3 :=
  ⟨by decide,
    (reverse_batch_round_trip sampleHeap [sampleHash, Slice.nil, Slice.mk 2 2 2]
      (by decide)).imp fun _ h => ⟨h.1, h.2.1⟩⟩

/-! ## The hasher contract -/

theorem allocHash_bytes (m : Heap) (d : List Byte) :
    (allocHash m d).2.bytes (allocHash m d).1 = d :=
  Slice.bytes_fresh m d d.length

theorem allocHash_valid (m : Heap) (d : List Byte) :
    (allocHash m d).2.valid (allocHash m d).1 :=
  ⟨Nat.le_refl _, by simp [allocHash]⟩

/-- C14: on a hasher in the `Empty` state, writing `x1`, then `x2`, then
calling `SumHash` gives a hash `Equal` to `ComputeHash(x)` for the whole input
`x` (the bytes of `x1` followed by those of `x2`), whether `ComputeHash` is
called afterwards or was called on the untouched instance; both hashes have
length `Size()`. -/
theorem incremental_equivalence (m : Heap) (h : Hasher) (x1 x2 x : Slice)
    (hE : h.state = HasherState.Empty) (hv : x.valid m)
    (hx : x.bytes m = x1.bytes m ++ x2.bytes m) :
    Hash.Equal
      ((((h.Write m x1).1.Write m x2).1.SumHash m).2.1.ComputeHash
        (((h.Write m x1).1.Write m x2).1.SumHash m).1 x).1
      (((h.Write m x1).1.Write m x2).1.SumHash m).2.2
      ((((h.Write m x1).1.Write m x2).1.SumHash m).2.1.ComputeHash
        (((h.Write m x1).1.Write m x2).1.SumHash m).1 x).2.2 = true ∧
    (((h.Write m x1).1.Write m x2).1.SumHash m).2.2.bytes
        (((h.Write m x1).1.Write m x2).1.SumHash m).1 =
      (h.ComputeHash m x).2.2.bytes (h.ComputeHash m x).1 ∧
    Int.ofNat (((h.Write m x1).1.Write m x2).1.SumHash m).2.2.len = h.Size ∧
    Int.ofNat (h.ComputeHash m x).2.2.len = h.Size := by
  have hin : ((h.Write m x1).1.Write m x2).1.state.input = x.bytes m := by
    simp [Hasher.Write, HasherState.input, hE, hx]
  have hdig : ((h.Write m x1).1.Write m x2).1.digest = h.digest := rfl
  have hsum : ((h.Write m x1).1.Write m x2).1.SumHash m =
      ((allocHash m (h.digest (x.bytes m))).1,
        { ((h.Write m x1).1.Write m x2).1 with state := HasherState.Empty },
        (allocHash m (h.digest (x.bytes m))).2) := by
    simp only [Hasher.SumHash, hin, hdig]
  have hxs : x.bytes (allocHash m (h.digest (x.bytes m))).1 = x.bytes m :=
    Slice.bytes_append m _ x hv
  have hlen : ∀ (m0 : Heap) (d : List Byte), (allocHash m0 d).2.len = d.length :=
    fun _ _ => rfl
  rw [hsum]
  refine ⟨?_, ?_, ?_, ?_⟩
  · rw [Hash.Equal_eq_true_iff]
    simp only [Hasher.ComputeHash]
    rw [allocHash_bytes, hxs]
    exact Slice.bytes_append _ _ _ (allocHash_valid m _)
      |>.trans (allocHash_bytes m _)
  · simp only [Hasher.ComputeHash]
  · show Int.ofNat (allocHash m (h.digest (x.bytes m))).2.len = h.Size
    rw [hlen]
    exact h.size_ok _
  · show Int.ofNat (allocHash m (h.digest (x.bytes m))).2.len = h.Size
    rw [hlen]
    exact h.size_ok _

/-- C14 at a concrete input: the sample hasher, the one-byte slices `ab` and
`cd` of `sampleHeap` as the two parts and the two-byte slice `ab cd` as the
whole input. -/
theorem incremental_equivalence_witness :
    sampleHasher.state = HasherState.Empty ∧ sampleHash.valid sampleHeap ∧
    sampleHash.bytes sampleHeap =
      (Slice.mk 0 1 1).bytes sampleHeap ++ (Slice.mk 1 1 1).bytes sampleHeap ∧
    Hash.Equal
      ((((sampleHasher.Write sampleHeap (Slice.mk 0 1 1)).1.Write sampleHeap
          (Slice.mk 1 1 1)).1.SumHash sampleHeap).2.1.ComputeHash
        (((sampleHasher.Write sampleHeap (Slice.mk 0 1 1)).1.Write sampleHeap
          (Slice.mk 1 1 1)).1.SumHash sampleHeap).1 sampleHash).1
      (((sampleHasher.Write sampleHeap (Slice.mk 0 1 1)).1.Write sampleHeap
        (Slice.mk 1 1 1)).1.SumHash sampleHeap).2.2
      ((((sampleHasher.Write sampleHeap (Slice.mk 0 1 1)).1.Write sampleHeap
          (Slice.mk 1 1 1)).1.SumHash sampleHeap).2.1.ComputeHash
        (((sampleHasher.Write sampleHeap (Slice.mk 0 1 1)).1.Write sampleHeap
          (Slice.mk 1 1 1)).1.SumHash sampleHeap).1 sampleHash).2.2 = true :=
  ⟨rfl, by decide, by decide,
    (incremental_equivalence sampleHeap sampleHasher (Slice.mk 0 1 1) (Slice.mk 1 1 1)
      sampleHash rfl (by decide) (by decide)).1⟩

/-- C15: whatever state a hasher is in, `SumHash` and `Reset` leave it in the
`Empty` state and `ComputeHash` leaves its state as it was (none of the three
changes the algorithm or the output size); so a `SumHash` right after a
`SumHash` or a `Reset`, also with a `ComputeHash` in between, returns the
digest of the empty input. -/
theorem Hasher_state_machine (m : Heap) (h : Hasher) (x : Slice) :
    ((h.SumHash m).2.1.state = HasherState.Empty ∧ (h.SumHash m).2.1.common = h.common) ∧
    (h.Reset.state = HasherState.Empty ∧ h.Reset.common = h.common) ∧
    ((h.ComputeHash m x).2.1.state = h.state ∧ (h.ComputeHash m x).2.1.common = h.common) ∧
    ((h.SumHash m).2.1.SumHash (h.SumHash m).1).2.2.bytes
        ((h.SumHash m).2.1.SumHash (h.SumHash m).1).1 = h.digest [] ∧
    (h.Reset.SumHash m).2.2.bytes (h.Reset.SumHash m).1 = h.digest [] ∧
    (((h.Reset.ComputeHash m x).2.1).SumHash (h.Reset.ComputeHash m x).1).2.2.bytes
        (((h.Reset.ComputeHash m x).2.1).SumHash (h.Reset.ComputeHash m x).1).1 =
      h.digest [] := by
  refine ⟨⟨rfl, rfl⟩, ⟨rfl, rfl⟩, ⟨rfl, rfl⟩, ?_, ?_, ?_⟩
  · exact allocHash_bytes _ _
  · exact allocHash_bytes _ _
  · exact allocHash_bytes _ _
